import Mathlib

/-!
Shallow embedding of `cachelib/common/CountMinSketch.h`
(`facebook::cachelib::util::detail::CountMinSketchBase<UINT>`).

Modelling conventions:

* The counter type `UINT` (`uint8_t` / `uint16_t` / `uint32_t`) is modelled
  by its maximum value `M : Nat` (`std::numeric_limits<UINT>::max()`, i.e.
  `2^8-1`, `2^16-1` or `2^32-1`).  Cell values are `Nat`; operations that in
  C++ could wrap (the `table_[index] -= count` in `resetCount`) are modelled
  with explicit arithmetic modulo `M + 1`, the modulus of the unsigned type.
* The hash primitives `facebook::cachelib::hashInt` and
  `facebook::cachelib::combineHashes` live outside this repository's source
  and are, per their contract, arbitrary deterministic functions.  They are
  abstracted into a single parameter `h : Nat → Nat → Nat` with
  `h hashNum key` standing for `combineHashes (hashInt hashNum) key`.
  All theorems are proved for every such `h`.
* The `table_` array is modelled as a total function `Nat → Nat`; the code
  only ever touches indices below `width_ * depth_`.
* `double` arithmetic in `calculateWidth` / `calculateDepth` is idealised as
  exact real arithmetic over `ℝ`, and the `decay` factor of `decayCountsBy`
  as an exact rational; `narrow_cast<UINT>` of a nonnegative value is
  truncation toward zero, i.e. `Int.toNat ∘ Int.floor`.
-/

namespace CountMinSketch

/-- State of `CountMinSketchBase<UINT>`: the fields `width_`, `depth_`,
`table_` and `saturated`. -/
structure CMS where
  width : Nat
  depth : Nat
  table : Nat → Nat
  saturated : Nat

namespace CMS

/-- `getIndex(hashNumber, key)`:
`hashNumber * width_ + combineHashes(hashInt(hashNumber), key) % width_`. -/
def getIndex (s : CMS) (h : Nat → Nat → Nat) (hashNum key : Nat) : Nat :=
  hashNum * s.width + h hashNum key % s.width

/-- Pointwise update of the modelled `table_` array at one index. -/
def setTable (t : Nat → Nat) (i v : Nat) : Nat → Nat :=
  fun j => if j = i then v else t j

/-- One iteration of the loop body of `increment`: if the cell is below the
counter maximum it is incremented, and `saturated` is bumped when the cell
just reached the maximum. -/
def incrementStep (M : Nat) (h : Nat → Nat → Nat) (key : Nat)
    (s : CMS) (hashNum : Nat) : CMS :=
  let index := s.getIndex h hashNum key
  if s.table index < M then
    let v := s.table index + 1
    { s with table := setTable s.table index v,
             saturated := if v = M then s.saturated + 1 else s.saturated }
  else s

/-- `increment(key)`: the loop `for (hashNum = 0; hashNum < depth_; hashNum++)`. -/
def increment (M : Nat) (h : Nat → Nat → Nat) (key : Nat) (s : CMS) : CMS :=
  (List.range s.depth).foldl (incrementStep M h key) s

/-- `getCount(key)`: fold `count = min(count, table_[index])` starting from
`getMaxCount()`, then `count * (depth_ != 0)`. -/
def getCount (M : Nat) (h : Nat → Nat → Nat) (key : Nat) (s : CMS) : Nat :=
  ((List.range s.depth).foldl
      (fun c hashNum => min c (s.table (s.getIndex h hashNum key))) M)
    * (if s.depth ≠ 0 then 1 else 0)

/-- One iteration of the loop body of `resetCount`: `table_[index] -= count`,
with unsigned wrap-around modulo `M + 1` made explicit. -/
def resetStep (M : Nat) (h : Nat → Nat → Nat) (key count : Nat)
    (s : CMS) (hashNum : Nat) : CMS :=
  let index := s.getIndex h hashNum key
  let v := (s.table index + (M + 1) - count) % (M + 1)
  { s with table := setTable s.table index v }

/-- `resetCount(key)`: `count = getCount(key)` computed once, then the
subtraction loop over all rows. -/
def resetCount (M : Nat) (h : Nat → Nat → Nat) (key : Nat) (s : CMS) : CMS :=
  (List.range s.depth).foldl (resetStep M h key (getCount M h key s)) s

/-- `decayCountsBy(decay)`: every cell of the table becomes
`narrow_cast<UINT>(table_[i] * decay)`, i.e. the product truncated toward
zero; the `double` factor is idealised as an exact rational. -/
def decayCountsBy (d : ℚ) (s : CMS) : CMS :=
  { s with table := fun i =>
      if i < s.width * s.depth then (⌊(s.table i : ℚ) * d⌋).toNat
      else s.table i }

/-- `reset()`: zero every cell `table_[i]` for `i < width_ * depth_`
(`saturated` is left untouched, exactly as in the source). -/
def reset (s : CMS) : CMS :=
  { s with table := fun i => if i < s.width * s.depth then 0 else s.table i }

/-- `getSaturatedCounts()`. -/
def getSaturatedCounts (s : CMS) : Nat := s.saturated

/-- The number of table cells currently equal to the counter maximum `M`
(what the spec calls the cells "currently at the counter type's maximum
value"). -/
def satCells (M : Nat) (s : CMS) : Nat :=
  (List.range (s.width * s.depth)).countP (fun i => s.table i == M)

/-- The state produced by the dimensions constructor once its argument
checks passed: a zero-initialised `width * depth` table and
`saturated = 0`. -/
def fresh (width depth : Nat) : CMS :=
  ⟨width, depth, fun _ => 0, 0⟩

/-- The default-constructed sketch (`CountMinSketchBase() = default`):
`width_ = 0`, `depth_ = 0`, no table, `saturated = 0`.  The absent
(`nullptr`) table is modelled by the all-zero function; no operation on a
`0 × 0` sketch ever reads it. -/
def mkDefault : CMS := ⟨0, 0, fun _ => 0, 0⟩

/-- The state a sketch is left in by the move constructor: `width_` and
`depth_` are zeroed, the table pointer is moved away (modelled as the
all-zero function), and `saturated` is NOT cleared by the move. -/
def moveFrom (s : CMS) : CMS := ⟨0, 0, fun _ => 0, s.saturated⟩

/-- A sequence of `increment` calls, one per listed key. -/
def applyIncs (M : Nat) (h : Nat → Nat → Nat) (ops : List Nat) (s : CMS) : CMS :=
  ops.foldl (fun t k => increment M h k t) s

end CMS

/-- The one error kind of the component, `std::invalid_argument`, carrying
the offending parameter and its value as the `folly::sformat` messages do. -/
inductive CMSError where
  | invalidWidth (width : Nat)
  | invalidDepth (depth : Nat)
  | invalidError (error : ℝ)
  | invalidProbability (probability : ℝ)

/-- The `CountMinSketchBase(uint32_t width, uint32_t depth)` constructor:
width checked first, then depth, then the zeroed table is allocated. -/
def withDimensions (width depth : Nat) : Except CMSError CMS :=
  if width = 0 then .error (.invalidWidth width)
  else if depth = 0 then .error (.invalidDepth depth)
  else .ok (CMS.fresh width depth)

/-- `calculateWidth(error, maxWidth)`: reject `error <= 0 || error >= 1`,
else `width = ceil(2 / error)`, clamped to `maxWidth` when `maxWidth > 0`. -/
noncomputable def calculateWidth (error : ℝ) (maxWidth : Nat) :
    Except CMSError Nat :=
  if error ≤ 0 ∨ 1 ≤ error then .error (.invalidError error)
  else
    let width := (⌈2 / error⌉).toNat
    .ok (if 0 < maxWidth then min maxWidth width else width)

/-- `calculateDepth(probability, maxDepth)`: reject
`probability <= 0 || probability >= 1`, else
`depth = max(1, ceil(|log(1 - probability) / log 2|))`, clamped to
`maxDepth` when `maxDepth > 0`. -/
noncomputable def calculateDepth (probability : ℝ) (maxDepth : Nat) :
    Except CMSError Nat :=
  if probability ≤ 0 ∨ 1 ≤ probability then .error (.invalidProbability probability)
  else
    let depth := max 1 (⌈|Real.log (1 - probability) / Real.log 2|⌉).toNat
    .ok (if 0 < maxDepth then min maxDepth depth else depth)

/-- The accuracy constructor
`CountMinSketchBase(error, probability, maxWidth, maxDepth)`: it delegates to
the dimensions constructor on `calculateWidth` / `calculateDepth`. -/
noncomputable def fromAccuracy (error probability : ℝ) (maxWidth maxDepth : Nat) :
    Except CMSError CMS := do
  let w ← calculateWidth error maxWidth
  let d ← calculateDepth probability maxDepth
  withDimensions w d

end CountMinSketch

/-! ### Basic lemmas about the table-update steps -/

namespace CountMinSketch

namespace CMS

theorem setTable_same (t : Nat → Nat) (i v : Nat) : setTable t i v i = v := by
  simp [setTable]

theorem setTable_other (t : Nat → Nat) (i v j : Nat) (hj : j ≠ i) :
    setTable t i v j = t j := by
  simp [setTable, hj]

theorem getIndex_mem_block (s : CMS) (h : Nat → Nat → Nat) (r k : Nat)
    (hw : 0 < s.width) :
    r * s.width ≤ s.getIndex h r k ∧ s.getIndex h r k < r * s.width + s.width := by
  unfold getIndex
  exact ⟨Nat.le_add_right _ _, Nat.add_lt_add_left (Nat.mod_lt _ hw) _⟩

theorem getIndex_lt_size (s : CMS) (h : Nat → Nat → Nat) (r k : Nat)
    (hw : 0 < s.width) (hr : r < s.depth) :
    s.getIndex h r k < s.width * s.depth := by
  have hb := getIndex_mem_block s h r k hw
  have hds : r * s.width + s.width ≤ s.depth * s.width := by
    have : r + 1 ≤ s.depth := hr
    calc r * s.width + s.width = (r + 1) * s.width := by ring
    _ ≤ s.depth * s.width := Nat.mul_le_mul_right _ this
  rw [Nat.mul_comm]
  omega

theorem getIndex_ne (s : CMS) (h : Nat → Nat → Nat) (r r' k k' : Nat)
    (hw : 0 < s.width) (hne : r ≠ r') :
    s.getIndex h r k ≠ s.getIndex h r' k' := by
  have h1 := getIndex_mem_block s h r k hw
  have h2 := getIndex_mem_block s h r' k' hw
  rcases Nat.lt_or_ge r r' with hlt | hge
  · have : r * s.width + s.width ≤ r' * s.width := by
      have : r + 1 ≤ r' := hlt
      calc r * s.width + s.width = (r + 1) * s.width := by ring
      _ ≤ r' * s.width := Nat.mul_le_mul_right _ this
    omega
  · have hlt : r' < r := lt_of_le_of_ne hge (Ne.symm hne)
    have : r' * s.width + s.width ≤ r * s.width := by
      have : r' + 1 ≤ r := hlt
      calc r' * s.width + s.width = (r' + 1) * s.width := by ring
      _ ≤ r * s.width := Nat.mul_le_mul_right _ this
    omega

theorem incrementStep_width (M : Nat) (h : Nat → Nat → Nat) (k : Nat)
    (s : CMS) (r : Nat) : (incrementStep M h k s r).width = s.width := by
  unfold incrementStep
  dsimp only
  split <;> rfl

theorem incrementStep_depth (M : Nat) (h : Nat → Nat → Nat) (k : Nat)
    (s : CMS) (r : Nat) : (incrementStep M h k s r).depth = s.depth := by
  unfold incrementStep
  dsimp only
  split <;> rfl

theorem incrementStep_table_outside (M : Nat) (h : Nat → Nat → Nat) (k : Nat)
    (s : CMS) (r i : Nat) (hw : 0 < s.width)
    (hi : i < r * s.width ∨ r * s.width + s.width ≤ i) :
    (incrementStep M h k s r).table i = s.table i := by
  have hb := getIndex_mem_block s h r k hw
  have hne : i ≠ s.getIndex h r k := by omega
  unfold incrementStep
  dsimp only
  split
  · exact setTable_other _ _ _ _ hne
  · rfl

theorem incrementStep_table_own (M : Nat) (h : Nat → Nat → Nat) (k : Nat)
    (s : CMS) (r : Nat) :
    (incrementStep M h k s r).table (s.getIndex h r k) =
      (if s.table (s.getIndex h r k) < M then s.table (s.getIndex h r k) + 1
       else s.table (s.getIndex h r k)) := by
  unfold incrementStep
  dsimp only
  split
  · next hc => simp [setTable_same, hc]
  · next hc => simp [hc]

theorem incrementStep_table_le (M : Nat) (h : Nat → Nat → Nat) (k : Nat)
    (s : CMS) (r i : Nat) : s.table i ≤ (incrementStep M h k s r).table i := by
  unfold incrementStep
  dsimp only
  split
  · by_cases hi : i = s.getIndex h r k
    · subst hi
      simp [setTable]
    · simp [setTable, hi]
  · exact Nat.le_refl _

theorem resetStep_width (M : Nat) (h : Nat → Nat → Nat) (k c : Nat)
    (s : CMS) (r : Nat) : (resetStep M h k c s r).width = s.width := rfl

theorem resetStep_depth (M : Nat) (h : Nat → Nat → Nat) (k c : Nat)
    (s : CMS) (r : Nat) : (resetStep M h k c s r).depth = s.depth := rfl

theorem resetStep_table_outside (M : Nat) (h : Nat → Nat → Nat) (k c : Nat)
    (s : CMS) (r i : Nat) (hw : 0 < s.width)
    (hi : i < r * s.width ∨ r * s.width + s.width ≤ i) :
    (resetStep M h k c s r).table i = s.table i := by
  have hb := getIndex_mem_block s h r k hw
  have hne : i ≠ s.getIndex h r k := by omega
  exact setTable_other _ _ _ _ hne

theorem resetStep_table_own (M : Nat) (h : Nat → Nat → Nat) (k c : Nat)
    (s : CMS) (r : Nat) :
    (resetStep M h k c s r).table (s.getIndex h r k) =
      (s.table (s.getIndex h r k) + (M + 1) - c) % (M + 1) :=
  setTable_same _ _ _

/-! ### Generic lemmas about folding a per-row step over the rows -/

theorem foldl_step_width (step : CMS → Nat → CMS)
    (hW : ∀ s r, (step s r).width = s.width) :
    ∀ (L : List Nat) (s : CMS), (L.foldl step s).width = s.width := by
  intro L
  induction L with
  | nil => intro s; rfl
  | cons a L ih => intro s; rw [List.foldl_cons, ih, hW]

theorem foldl_step_depth (step : CMS → Nat → CMS)
    (hD : ∀ s r, (step s r).depth = s.depth) :
    ∀ (L : List Nat) (s : CMS), (L.foldl step s).depth = s.depth := by
  intro L
  induction L with
  | nil => intro s; rfl
  | cons a L ih => intro s; rw [List.foldl_cons, ih, hD]

theorem foldl_step_table_outside (step : CMS → Nat → CMS)
    (hW : ∀ s r, (step s r).width = s.width)
    (htouch : ∀ s r i, 0 < s.width →
      (i < r * s.width ∨ r * s.width + s.width ≤ i) →
      (step s r).table i = s.table i)
    (i : Nat) :
    ∀ (L : List Nat) (s : CMS), 0 < s.width →
      (∀ r ∈ L, i < r * s.width ∨ r * s.width + s.width ≤ i) →
      (L.foldl step s).table i = s.table i := by
  intro L
  induction L with
  | nil => intro s _ _; rfl
  | cons a L ih =>
      intro s hw hL
      rw [List.foldl_cons]
      have hw' : 0 < (step s a).width := by rw [hW]; exact hw
      have hL' : ∀ r ∈ L, i < r * (step s a).width ∨
          r * (step s a).width + (step s a).width ≤ i := by
        intro r hr
        rw [hW]
        exact hL r (List.mem_cons_of_mem _ hr)
      rw [ih (step s a) hw' hL', htouch s a i hw (hL a (List.mem_cons_self _ _))]

end CMS

end CountMinSketch

namespace CountMinSketch

namespace CMS

theorem getIndex_congr (s t : CMS) (h : Nat → Nat → Nat) (r k : Nat)
    (hwid : t.width = s.width) : t.getIndex h r k = s.getIndex h r k := by
  unfold getIndex
  rw [hwid]

theorem foldl_step_table_le (step : CMS → Nat → CMS)
    (hle : ∀ s r i, s.table i ≤ (step s r).table i) :
    ∀ (L : List Nat) (s : CMS) (i : Nat), s.table i ≤ (L.foldl step s).table i := by
  intro L
  induction L with
  | nil => intro s i; exact Nat.le_refl _
  | cons a L ih =>
      intro s i
      rw [List.foldl_cons]
      exact Nat.le_trans (hle s a i) (ih (step s a) i)

theorem foldl_range_table_own (step : CMS → Nat → CMS) (w : Nat) (ix : Nat → Nat)
    (g : Nat → Nat)
    (hW : ∀ s r, (step s r).width = s.width)
    (htouch : ∀ s r i, 0 < s.width →
      (i < r * s.width ∨ r * s.width + s.width ≤ i) →
      (step s r).table i = s.table i)
    (hown : ∀ s r, s.width = w → (step s r).table (ix r) = g (s.table (ix r)))
    (hw : 0 < w)
    (hix : ∀ r, r * w ≤ ix r ∧ ix r < r * w + w)
    (d r : Nat) (hr : r < d) (s : CMS) (hsw : s.width = w) :
    ((List.range d).foldl step s).table (ix r) = g (s.table (ix r)) := by
  have hd : d = (r + 1) + (d - (r + 1)) := by omega
  rw [hd, List.range_add, List.foldl_append, List.range_succ, List.foldl_append]
  have hs1w : ((List.range r).foldl step s).width = w := by
    rw [foldl_step_width step hW]; exact hsw
  have hs1t : ((List.range r).foldl step s).table (ix r) = s.table (ix r) := by
    apply foldl_step_table_outside step hW htouch
    · rw [hsw]; exact hw
    · intro x hx
      rw [hsw]
      right
      have h1 : x + 1 ≤ r := List.mem_range.mp hx
      have h2 : (x + 1) * w ≤ r * w := Nat.mul_le_mul_right _ h1
      have h3 := (hix r).1
      have h4 : x * w + w = (x + 1) * w := by ring
      omega
  simp only [List.foldl_cons, List.foldl_nil]
  have hs2w : (step ((List.range r).foldl step s) r).width = w := by
    rw [hW]; exact hs1w
  have hs2t : (step ((List.range r).foldl step s) r).table (ix r)
      = g (s.table (ix r)) := by
    rw [hown _ _ hs1w, hs1t]
  rw [foldl_step_table_outside step hW htouch (ix r) _ _ (by rw [hs2w]; exact hw) ?_, hs2t]
  intro y hy
  rcases List.mem_map.mp hy with ⟨x, _, rfl⟩
  rw [hs2w]
  left
  have h2 := (hix r).2
  have h3 : (r + 1) * w ≤ (r + 1 + x) * w := Nat.mul_le_mul_right _ (by omega)
  have h4 : r * w + w = (r + 1) * w := by ring
  omega

theorem increment_width (M : Nat) (h : Nat → Nat → Nat) (k : Nat) (s : CMS) :
    (increment M h k s).width = s.width :=
  foldl_step_width _ (incrementStep_width M h k) _ _

theorem increment_depth (M : Nat) (h : Nat → Nat → Nat) (k : Nat) (s : CMS) :
    (increment M h k s).depth = s.depth :=
  foldl_step_depth _ (incrementStep_depth M h k) _ _

theorem increment_table_le (M : Nat) (h : Nat → Nat → Nat) (k : Nat) (s : CMS)
    (i : Nat) : s.table i ≤ (increment M h k s).table i :=
  foldl_step_table_le _ (incrementStep_table_le M h k) _ _ _

theorem increment_cell (M : Nat) (h : Nat → Nat → Nat) (k : Nat) (s : CMS)
    (hw : 0 < s.width) (r : Nat) (hr : r < s.depth) :
    (increment M h k s).table (s.getIndex h r k) =
      (if s.table (s.getIndex h r k) < M then s.table (s.getIndex h r k) + 1
       else s.table (s.getIndex h r k)) := by
  apply foldl_range_table_own (incrementStep M h k) s.width
      (fun r => s.getIndex h r k) (fun v => if v < M then v + 1 else v)
      (incrementStep_width M h k) (incrementStep_table_outside M h k)
      ?_ hw ?_ s.depth r hr s rfl
  · intro t r2 hwid
    dsimp only
    rw [← getIndex_congr s t h r2 k hwid]
    exact incrementStep_table_own M h k t r2
  · intro r2
    exact getIndex_mem_block s h r2 k hw

theorem incrementStep_table_ne (M : Nat) (h : Nat → Nat → Nat) (k : Nat)
    (s : CMS) (r i : Nat) (hne : i ≠ s.getIndex h r k) :
    (incrementStep M h k s r).table i = s.table i := by
  unfold incrementStep
  dsimp only
  split
  · exact setTable_other _ _ _ _ hne
  · rfl

theorem foldl_step_table_untouched (step : CMS → Nat → CMS) (w : Nat)
    (ix : Nat → Nat)
    (hW : ∀ s r, (step s r).width = s.width)
    (hstep : ∀ s r i, s.width = w → i ≠ ix r → (step s r).table i = s.table i) :
    ∀ (L : List Nat) (s : CMS) (i : Nat), s.width = w →
      (∀ r ∈ L, i ≠ ix r) → (L.foldl step s).table i = s.table i := by
  intro L
  induction L with
  | nil => intro s i _ _; rfl
  | cons a L ih =>
      intro s i hsw hL
      rw [List.foldl_cons]
      have hsw' : (step s a).width = w := by rw [hW]; exact hsw
      rw [ih (step s a) i hsw' (fun r hr => hL r (List.mem_cons_of_mem _ hr)),
        hstep s a i hsw (hL a (List.mem_cons_self _ _))]

theorem increment_table_untouched (M : Nat) (h : Nat → Nat → Nat) (k : Nat)
    (s : CMS) (i : Nat)
    (hi : ∀ r, r < s.depth → i ≠ s.getIndex h r k) :
    (increment M h k s).table i = s.table i := by
  apply foldl_step_table_untouched (incrementStep M h k) s.width
      (fun r => s.getIndex h r k) (incrementStep_width M h k) ?_
      (List.range s.depth) s i rfl ?_
  · intro t r2 j hwid hne
    apply incrementStep_table_ne
    rw [getIndex_congr s t h r2 k hwid]
    exact hne
  · intro r hr
    exact hi r (List.mem_range.mp hr)

end CMS

end CountMinSketch

namespace CountMinSketch

namespace CMS

theorem foldl_min_le_init (f : Nat → Nat) :
    ∀ (L : List Nat) (c : Nat), L.foldl (fun c x => min c (f x)) c ≤ c := by
  intro L
  induction L with
  | nil => intro c; exact Nat.le_refl _
  | cons a L ih =>
      intro c
      rw [List.foldl_cons]
      exact Nat.le_trans (ih _) (Nat.min_le_left _ _)

theorem foldl_min_le_mem (f : Nat → Nat) :
    ∀ (L : List Nat) (c x : Nat), x ∈ L →
      L.foldl (fun c x => min c (f x)) c ≤ f x := by
  intro L
  induction L with
  | nil => intro c x hx; cases hx
  | cons a L ih =>
      intro c x hx
      rw [List.foldl_cons]
      rcases List.mem_cons.mp hx with rfl | hx
      · exact Nat.le_trans (foldl_min_le_init f L _) (Nat.min_le_right _ _)
      · exact ih _ x hx

theorem foldl_min_ge (f : Nat → Nat) :
    ∀ (L : List Nat) (c n : Nat), n ≤ c → (∀ x ∈ L, n ≤ f x) →
      n ≤ L.foldl (fun c x => min c (f x)) c := by
  intro L
  induction L with
  | nil => intro c n hc _; exact hc
  | cons a L ih =>
      intro c n hc hL
      rw [List.foldl_cons]
      exact ih _ n (le_min hc (hL a (List.mem_cons_self _ _)))
        (fun x hx => hL x (List.mem_cons_of_mem _ hx))

theorem foldl_min_eq_init_or_mem (f : Nat → Nat) :
    ∀ (L : List Nat) (c : Nat),
      L.foldl (fun c x => min c (f x)) c = c ∨
        ∃ x ∈ L, L.foldl (fun c x => min c (f x)) c = f x := by
  intro L
  induction L with
  | nil => intro c; exact Or.inl rfl
  | cons a L ih =>
      intro c
      rw [List.foldl_cons]
      rcases ih (min c (f a)) with heq | ⟨x, hx, heq⟩
      · rcases Nat.le_total c (f a) with hca | hca
        · rw [heq, Nat.min_eq_left hca]
          exact Or.inl rfl
        · rw [heq, Nat.min_eq_right hca]
          exact Or.inr ⟨a, List.mem_cons_self _ _, rfl⟩
      · exact Or.inr ⟨x, List.mem_cons_of_mem _ hx, heq⟩

theorem applyIncs_width (M : Nat) (h : Nat → Nat → Nat) :
    ∀ (ops : List Nat) (s : CMS), (applyIncs M h ops s).width = s.width := by
  intro ops
  induction ops with
  | nil => intro s; rfl
  | cons a ops ih =>
      intro s
      show (applyIncs M h ops (increment M h a s)).width = s.width
      rw [ih, increment_width]

theorem applyIncs_depth (M : Nat) (h : Nat → Nat → Nat) :
    ∀ (ops : List Nat) (s : CMS), (applyIncs M h ops s).depth = s.depth := by
  intro ops
  induction ops with
  | nil => intro s; rfl
  | cons a ops ih =>
      intro s
      show (applyIncs M h ops (increment M h a s)).depth = s.depth
      rw [ih, increment_depth]

theorem applyIncs_cell_ge (M : Nat) (h : Nat → Nat → Nat) (k : Nat) :
    ∀ (ops : List Nat) (s : CMS) (r : Nat), 0 < s.width → r < s.depth →
      min M (s.table (s.getIndex h r k) + ops.count k) ≤
        (applyIncs M h ops s).table (s.getIndex h r k) := by
  intro ops
  induction ops with
  | nil =>
      intro s r hw hr
      simp only [applyIncs, List.foldl_nil, List.count_nil, Nat.add_zero]
      exact Nat.min_le_right _ _
  | cons a ops ih =>
      intro s r hw hr
      have hw' : 0 < (increment M h a s).width := by
        rw [increment_width]; exact hw
      have hr' : r < (increment M h a s).depth := by
        rw [increment_depth]; exact hr
      have hgi : (increment M h a s).getIndex h r k = s.getIndex h r k :=
        getIndex_congr s _ h r k (increment_width M h a s)
      have IH := ih (increment M h a s) r hw' hr'
      rw [hgi] at IH
      show min M (s.table (s.getIndex h r k) + (a :: ops).count k) ≤
        (applyIncs M h ops (increment M h a s)).table (s.getIndex h r k)
      refine Nat.le_trans ?_ IH
      by_cases hak : a = k
      · subst hak
        have hcell := increment_cell M h a s hw r hr
        rw [hcell, List.count_cons_self]
        by_cases hv : s.table (s.getIndex h r a) < M
        · rw [if_pos hv]
          omega
        · rw [if_neg hv]
          omega
      · have hle := increment_table_le M h a s (s.getIndex h r k)
        rw [List.count_cons_of_ne (Ne.symm hak)]
        omega

end CMS

end CountMinSketch

namespace CountMinSketch

/-- C1: starting from a freshly constructed sketch, after any finite sequence
of increments, `getCount k` is at least the number of `increment k` calls in
the sequence, provided no cell indexed by `k` has reached the counter
maximum `M` (never-undercount). -/
theorem C1_never_undercount (M : Nat) (h : Nat → Nat → Nat) (w d : Nat)
    (ops : List Nat) (k : Nat) (hw : 0 < w) (hd : 0 < d)
    (hsat : ∀ r, r < d →
      (CMS.applyIncs M h ops (CMS.fresh w d)).table
        ((CMS.fresh w d).getIndex h r k) < M) :
    ops.count k ≤ CMS.getCount M h k (CMS.applyIncs M h ops (CMS.fresh w d)) := by
  generalize hgen : CMS.applyIncs M h ops (CMS.fresh w d) = s2 at hsat ⊢
  have hs2w : s2.width = w := by
    rw [← hgen]; exact CMS.applyIncs_width M h ops (CMS.fresh w d)
  have hs2d : s2.depth = d := by
    rw [← hgen]; exact CMS.applyIncs_depth M h ops (CMS.fresh w d)
  have hcell : ∀ r, r < d →
      ops.count k ≤ s2.table ((CMS.fresh w d).getIndex h r k) := by
    intro r hr
    have hge := CMS.applyIncs_cell_ge M h k ops (CMS.fresh w d) r hw hr
    have h0 : (CMS.fresh w d).table ((CMS.fresh w d).getIndex h r k) = 0 := rfl
    rw [h0, hgen] at hge
    have hlt := hsat r hr
    omega
  have hM : ops.count k ≤ M := by
    have h0 := hcell 0 hd
    have hlt := hsat 0 hd
    omega
  have hgi : ∀ r, s2.getIndex h r k = (CMS.fresh w d).getIndex h r k :=
    fun r => CMS.getIndex_congr (CMS.fresh w d) s2 h r k hs2w
  unfold CMS.getCount
  rw [hs2d]
  have hfold : ops.count k ≤ (List.range d).foldl
      (fun c r2 => min c (s2.table (s2.getIndex h r2 k))) M := by
    apply CMS.foldl_min_ge (fun r2 => s2.table (s2.getIndex h r2 k))
      (List.range d) M _ hM
    intro x hx
    rw [hgi x]
    exact hcell x (List.mem_range.mp hx)
  have hdne : d ≠ 0 := Nat.pos_iff_ne_zero.mp hd
  rw [if_pos hdne, Nat.mul_one]
  exact hfold

/-- Witness for C1 at `M = 255`, `w = d = 2`, hash `(r, j) ↦ r + j`,
increments `[9, 5, 9]`, key `9`. -/
theorem C1_never_undercount_witness :
    ([9, 5, 9] : List Nat).count 9 ≤
      CMS.getCount 255 (fun r j => r + j) 9
        (CMS.applyIncs 255 (fun r j => r + j) [9, 5, 9] (CMS.fresh 2 2)) :=
  C1_never_undercount 255 (fun r j => r + j) 2 2 [9, 5, 9] 9
    (by decide) (by decide) (by decide)

end CountMinSketch

namespace CountMinSketch

namespace CMS

theorem getCount_le_cell (M : Nat) (h : Nat → Nat → Nat) (k : Nat) (s : CMS)
    (r : Nat) (hr : r < s.depth) :
    getCount M h k s ≤ s.table (s.getIndex h r k) := by
  have hle := foldl_min_le_mem (fun r2 => s.table (s.getIndex h r2 k))
    (List.range s.depth) M r (List.mem_range.mpr hr)
  dsimp only at hle
  unfold getCount
  have hd : s.depth ≠ 0 := by omega
  rw [if_pos hd, Nat.mul_one]
  exact hle

theorem getCount_eq_fold (M : Nat) (h : Nat → Nat → Nat) (k : Nat) (s : CMS)
    (hd : s.depth ≠ 0) :
    getCount M h k s = (List.range s.depth).foldl
      (fun c r2 => min c (s.table (s.getIndex h r2 k))) M := by
  unfold getCount
  rw [if_pos hd, Nat.mul_one]

end CMS

/-- C3: `getIndex` follows the formula
`row * width + (combineHashes (hashInt row) key) % width`; for `depth = 0`,
`getCount` returns `0`; for `depth > 0` (with all cells in the counter
range), `getCount` is a lower bound of every cell of the key and is attained
at some cell, i.e. it is the minimum over the rows.  `getCount` is a pure
function of the state (it returns a value and no state). -/
theorem C3_getCount_min (M : Nat) (h : Nat → Nat → Nat) (k : Nat) (s : CMS)
    (hb : ∀ i, s.table i ≤ M) :
    (∀ r k2, s.getIndex h r k2 = r * s.width + h r k2 % s.width) ∧
    (s.depth = 0 → CMS.getCount M h k s = 0) ∧
    (0 < s.depth →
      (∀ r, r < s.depth → CMS.getCount M h k s ≤ s.table (s.getIndex h r k)) ∧
      (∃ r, r < s.depth ∧
        CMS.getCount M h k s = s.table (s.getIndex h r k))) := by
  refine ⟨fun r k2 => rfl, ?_, ?_⟩
  · intro hd0
    simp [CMS.getCount, hd0]
  · intro hd
    have hdne : s.depth ≠ 0 := Nat.pos_iff_ne_zero.mp hd
    have hmul := CMS.getCount_eq_fold M h k s hdne
    constructor
    · intro r hr
      exact CMS.getCount_le_cell M h k s r hr
    · rcases CMS.foldl_min_eq_init_or_mem
          (fun r2 => s.table (s.getIndex h r2 k)) (List.range s.depth) M with
        heq | ⟨x, hx, heq⟩
      · refine ⟨0, hd, ?_⟩
        have hle0 := CMS.getCount_le_cell M h k s 0 hd
        have hbM := hb (s.getIndex h 0 k)
        rw [hmul]
        omega
      · refine ⟨x, List.mem_range.mp hx, ?_⟩
        rw [hmul]
        exact heq

/-- Witness for C3 at `M = 255`, the fresh `2 × 2` sketch, hash
`(a, b) ↦ a + b`, key `3`. -/
theorem C3_getCount_min_witness :
    0 < (CMS.fresh 2 2).depth ∧
      (∃ r, r < (CMS.fresh 2 2).depth ∧
        CMS.getCount 255 (fun a b => a + b) 3 (CMS.fresh 2 2) =
          (CMS.fresh 2 2).table ((CMS.fresh 2 2).getIndex (fun a b => a + b) r 3)) :=
  ⟨by decide,
    ((C3_getCount_min 255 (fun a b => a + b) 3 (CMS.fresh 2 2)
      (fun i => Nat.zero_le _)).2.2 (by decide)).2⟩

/-- C8: immediately after `reset()` every cell of the table is `0`, and
`getCount` returns `0` for every key. -/
theorem C8_reset_zero (M : Nat) (h : Nat → Nat → Nat) (s : CMS)
    (hw : 0 < s.width) :
    (∀ i, i < s.width * s.depth → (CMS.reset s).table i = 0) ∧
    (∀ k, CMS.getCount M h k (CMS.reset s) = 0) := by
  have hzero : ∀ i, i < s.width * s.depth → (CMS.reset s).table i = 0 := by
    intro i hi
    unfold CMS.reset
    exact if_pos hi
  refine ⟨hzero, ?_⟩
  intro k
  by_cases hd : s.depth = 0
  · simp [CMS.getCount, CMS.reset, hd]
  · have hd2 : 0 < (CMS.reset s).depth := Nat.pos_of_ne_zero hd
    have hw2 : 0 < (CMS.reset s).width := hw
    have hle := CMS.getCount_le_cell M h k (CMS.reset s) 0 hd2
    have hidx : (CMS.reset s).getIndex h 0 k < s.width * s.depth :=
      CMS.getIndex_lt_size (CMS.reset s) h 0 k hw2 hd2
    have hcell0 : (CMS.reset s).table ((CMS.reset s).getIndex h 0 k) = 0 :=
      hzero _ hidx
    rw [hcell0] at hle
    exact Nat.le_zero.mp hle

/-- Witness for C8: a `3 × 2` sketch with three increments applied, then
reset. -/
theorem C8_reset_zero_witness :
    0 < (CMS.applyIncs 255 (fun a b => a * b + 1) [4, 7, 4] (CMS.fresh 3 2)).width ∧
      CMS.getCount 255 (fun a b => a * b + 1) 4
        (CMS.reset (CMS.applyIncs 255 (fun a b => a * b + 1) [4, 7, 4]
          (CMS.fresh 3 2))) = 0 :=
  ⟨by decide,
    (C8_reset_zero 255 (fun a b => a * b + 1)
      (CMS.applyIncs 255 (fun a b => a * b + 1) [4, 7, 4] (CMS.fresh 3 2))
      (by decide)).2 4⟩

end CountMinSketch

namespace CountMinSketch

namespace CMS

theorem resetStep_table_ne (M : Nat) (h : Nat → Nat → Nat) (k c : Nat)
    (s : CMS) (r i : Nat) (hne : i ≠ s.getIndex h r k) :
    (resetStep M h k c s r).table i = s.table i :=
  setTable_other _ _ _ _ hne

theorem resetCount_width (M : Nat) (h : Nat → Nat → Nat) (k : Nat) (s : CMS) :
    (resetCount M h k s).width = s.width :=
  foldl_step_width _ (resetStep_width M h k _) _ _

theorem resetCount_depth (M : Nat) (h : Nat → Nat → Nat) (k : Nat) (s : CMS) :
    (resetCount M h k s).depth = s.depth :=
  foldl_step_depth _ (resetStep_depth M h k _) _ _

theorem resetCount_cell (M : Nat) (h : Nat → Nat → Nat) (k : Nat) (s : CMS)
    (hw : 0 < s.width) (r : Nat) (hr : r < s.depth) :
    (resetCount M h k s).table (s.getIndex h r k) =
      (s.table (s.getIndex h r k) + (M + 1) - getCount M h k s) % (M + 1) := by
  apply foldl_range_table_own (resetStep M h k (getCount M h k s)) s.width
      (fun r => s.getIndex h r k)
      (fun v => (v + (M + 1) - getCount M h k s) % (M + 1))
      (resetStep_width M h k _) (resetStep_table_outside M h k _)
      ?_ hw ?_ s.depth r hr s rfl
  · intro t r2 hwid
    dsimp only
    rw [← getIndex_congr s t h r2 k hwid]
    exact resetStep_table_own M h k _ t r2
  · intro r2
    exact getIndex_mem_block s h r2 k hw

theorem incrementStep_table_le_max (M : Nat) (h : Nat → Nat → Nat) (k : Nat)
    (s : CMS) (r i : Nat) (hbi : s.table i ≤ M) :
    (incrementStep M h k s r).table i ≤ M := by
  unfold incrementStep
  dsimp only
  split
  · next hc =>
      by_cases hi : i = s.getIndex h r k
      · subst hi
        simp [setTable]
        omega
      · simp only [setTable, if_neg hi]
        exact hbi
  · exact hbi

theorem foldl_incrementStep_table_le_max (M : Nat) (h : Nat → Nat → Nat)
    (k : Nat) :
    ∀ (L : List Nat) (s : CMS) (i : Nat), s.table i ≤ M →
      ((L.foldl (incrementStep M h k) s).table i ≤ M) := by
  intro L
  induction L with
  | nil => intro s i hbi; exact hbi
  | cons a L ih =>
      intro s i hbi
      rw [List.foldl_cons]
      exact ih _ i (incrementStep_table_le_max M h k s a i hbi)

theorem applyIncs_table_le_max (M : Nat) (h : Nat → Nat → Nat) :
    ∀ (ops : List Nat) (s : CMS), (∀ i, s.table i ≤ M) →
      ∀ i, (applyIncs M h ops s).table i ≤ M := by
  intro ops
  induction ops with
  | nil => intro s hb i; exact hb i
  | cons a ops ih =>
      intro s hb i
      show (applyIncs M h ops (increment M h a s)).table i ≤ M
      apply ih
      intro j
      exact foldl_incrementStep_table_le_max M h a _ s j (hb j)

theorem resetCount_table_untouched (M : Nat) (h : Nat → Nat → Nat) (k : Nat)
    (s : CMS) (i : Nat)
    (hi : ∀ r, r < s.depth → i ≠ s.getIndex h r k) :
    (resetCount M h k s).table i = s.table i := by
  apply foldl_step_table_untouched (resetStep M h k (getCount M h k s)) s.width
      (fun r => s.getIndex h r k) (resetStep_width M h k _) ?_
      (List.range s.depth) s i rfl ?_
  · intro t r2 j hwid hne
    apply resetStep_table_ne
    rw [getIndex_congr s t h r2 k hwid]
    exact hne
  · intro r hr
    exact hi r (List.mem_range.mp hr)

end CMS

/-- C4: `resetCount k` first computes `c = getCount k` (which is at most
every cell of `k`), then subtracts exactly `c` from each of the `depth`
cells indexed by `k`, and leaves every other cell of the table unchanged. -/
theorem C4_resetCount_subtracts (M : Nat) (h : Nat → Nat → Nat) (k : Nat)
    (s : CMS) (hw : 0 < s.width) (hb : ∀ i, s.table i ≤ M) :
    (∀ r, r < s.depth → CMS.getCount M h k s ≤ s.table (s.getIndex h r k)) ∧
    (∀ r, r < s.depth → (CMS.resetCount M h k s).table (s.getIndex h r k) =
      s.table (s.getIndex h r k) - CMS.getCount M h k s) ∧
    (∀ i, (∀ r, r < s.depth → i ≠ s.getIndex h r k) →
      (CMS.resetCount M h k s).table i = s.table i) := by
  refine ⟨fun r hr => CMS.getCount_le_cell M h k s r hr, ?_,
    fun i hi => CMS.resetCount_table_untouched M h k s i hi⟩
  intro r hr
  rw [CMS.resetCount_cell M h k s hw r hr]
  have hc := CMS.getCount_le_cell M h k s r hr
  have hv := hb (s.getIndex h r k)
  have h1 : s.table (s.getIndex h r k) + (M + 1) - CMS.getCount M h k s =
      (s.table (s.getIndex h r k) - CMS.getCount M h k s) + (M + 1) := by
    omega
  rw [h1, Nat.add_mod_right, Nat.mod_eq_of_lt (by omega)]

/-- Witness for C4 at `M = 255`, a `2 × 2` sketch after increments
`[3, 3, 8]`, key `3`, row `1`. -/
theorem C4_resetCount_subtracts_witness :
    (CMS.resetCount 255 (fun a b => a + 2 * b) 3
        (CMS.applyIncs 255 (fun a b => a + 2 * b) [3, 3, 8] (CMS.fresh 2 2))).table
        ((CMS.applyIncs 255 (fun a b => a + 2 * b) [3, 3, 8]
          (CMS.fresh 2 2)).getIndex (fun a b => a + 2 * b) 1 3) =
      (CMS.applyIncs 255 (fun a b => a + 2 * b) [3, 3, 8]
          (CMS.fresh 2 2)).table
        ((CMS.applyIncs 255 (fun a b => a + 2 * b) [3, 3, 8]
          (CMS.fresh 2 2)).getIndex (fun a b => a + 2 * b) 1 3) -
      CMS.getCount 255 (fun a b => a + 2 * b) 3
        (CMS.applyIncs 255 (fun a b => a + 2 * b) [3, 3, 8] (CMS.fresh 2 2)) :=
  (C4_resetCount_subtracts 255 (fun a b => a + 2 * b) 3
    (CMS.applyIncs 255 (fun a b => a + 2 * b) [3, 3, 8] (CMS.fresh 2 2))
    (by decide)
    (CMS.applyIncs_table_le_max 255 (fun a b => a + 2 * b) [3, 3, 8]
      (CMS.fresh 2 2) (fun i => Nat.zero_le _))).2.1 1 (by decide)

/-- C9: distinct rows map to disjoint table slots; the subtracted count is
at most each of the key cells, so the unsigned subtraction
`table_[index] -= count` never wraps (the mod-`M+1` subtraction equals the
exact one), and after `resetCount` every cell is still in `[0, M]`. -/
theorem C9_resetCount_no_underflow (M : Nat) (h : Nat → Nat → Nat) (k : Nat)
    (s : CMS) (hw : 0 < s.width) (hb : ∀ i, s.table i ≤ M) :
    (∀ r1 r2 k1 k2, r1 ≠ r2 →
      s.getIndex h r1 k1 ≠ s.getIndex h r2 k2) ∧
    (∀ r, r < s.depth → CMS.getCount M h k s ≤ s.table (s.getIndex h r k)) ∧
    (∀ r, r < s.depth →
      (s.table (s.getIndex h r k) + (M + 1) - CMS.getCount M h k s) % (M + 1) =
        s.table (s.getIndex h r k) - CMS.getCount M h k s) ∧
    (∀ i, (CMS.resetCount M h k s).table i ≤ M) := by
  refine ⟨fun r1 r2 k1 k2 hne => CMS.getIndex_ne s h r1 r2 k1 k2 hw hne,
    fun r hr => CMS.getCount_le_cell M h k s r hr, ?_, ?_⟩
  · intro r hr
    have hc := CMS.getCount_le_cell M h k s r hr
    have hv := hb (s.getIndex h r k)
    have h1 : s.table (s.getIndex h r k) + (M + 1) - CMS.getCount M h k s =
        (s.table (s.getIndex h r k) - CMS.getCount M h k s) + (M + 1) := by
      omega
    rw [h1, Nat.add_mod_right, Nat.mod_eq_of_lt (by omega)]
  · intro i
    by_cases hex : ∃ r, r < s.depth ∧ i = s.getIndex h r k
    · rcases hex with ⟨r, hr, rfl⟩
      rw [CMS.resetCount_cell M h k s hw r hr]
      have hc := CMS.getCount_le_cell M h k s r hr
      have hv := hb (s.getIndex h r k)
      have h1 : s.table (s.getIndex h r k) + (M + 1) - CMS.getCount M h k s =
          (s.table (s.getIndex h r k) - CMS.getCount M h k s) + (M + 1) := by
        omega
      rw [h1, Nat.add_mod_right, Nat.mod_eq_of_lt (by omega)]
      omega
    · rw [CMS.resetCount_table_untouched M h k s i]
      · exact hb i
      · intro r hr hne
        exact hex ⟨r, hr, hne⟩

/-- Witness for C9 at `M = 255`, a `3 × 2` sketch after increments
`[1, 2, 1, 1]`, key `1`, cell `4`. -/
theorem C9_resetCount_no_underflow_witness :
    (CMS.resetCount 255 (fun a b => a * 3 + b) 1
      (CMS.applyIncs 255 (fun a b => a * 3 + b) [1, 2, 1, 1]
        (CMS.fresh 3 2))).table 4 ≤ 255 :=
  (C9_resetCount_no_underflow 255 (fun a b => a * 3 + b) 1
    (CMS.applyIncs 255 (fun a b => a * 3 + b) [1, 2, 1, 1] (CMS.fresh 3 2))
    (by decide)
    (CMS.applyIncs_table_le_max 255 (fun a b => a * 3 + b) [1, 2, 1, 1]
      (CMS.fresh 3 2) (fun i => Nat.zero_le _))).2.2.2 4

end CountMinSketch

namespace CountMinSketch

/-- C5: after `decayCountsBy d` with `0 ≤ d ≤ 1`, every table cell holds
`⌊oldValue * d⌋` (the product truncated back into the counter type), and in
particular no cell value increases. -/
theorem C5_decay_floor (d : ℚ) (s : CMS) (_h0 : 0 ≤ d) (h1 : d ≤ 1) :
    (∀ i, i < s.width * s.depth →
      (CMS.decayCountsBy d s).table i = (⌊(s.table i : ℚ) * d⌋).toNat) ∧
    (∀ i, (CMS.decayCountsBy d s).table i ≤ s.table i) := by
  constructor
  · intro i hi
    exact if_pos hi
  · intro i
    by_cases hi : i < s.width * s.depth
    · have heq : (CMS.decayCountsBy d s).table i =
          (⌊(s.table i : ℚ) * d⌋).toNat := if_pos hi
      rw [heq]
      have hmul : (s.table i : ℚ) * d ≤ (s.table i : ℚ) :=
        mul_le_of_le_one_right (by positivity) h1
      have hfl : ⌊(s.table i : ℚ) * d⌋ ≤ (s.table i : ℤ) := by
        have := Int.floor_le_floor hmul
        rwa [Int.floor_natCast] at this
      exact Int.toNat_le.mpr hfl
    · have heq : (CMS.decayCountsBy d s).table i = s.table i := if_neg hi
      rw [heq]

/-- Witness for C5 at `d = 2/3` on a `2 × 2` sketch with cells from
increments `[6, 6, 6, 11]`. -/
theorem C5_decay_floor_witness :
    (0 : ℚ) ≤ 2 / 3 ∧ (2 / 3 : ℚ) ≤ 1 ∧
      (∀ i, (CMS.decayCountsBy (2 / 3)
          (CMS.applyIncs 255 (fun a b => a + b) [6, 6, 6, 11]
            (CMS.fresh 2 2))).table i ≤
        (CMS.applyIncs 255 (fun a b => a + b) [6, 6, 6, 11]
          (CMS.fresh 2 2)).table i) :=
  ⟨by norm_num, by norm_num,
    (C5_decay_floor (2 / 3)
      (CMS.applyIncs 255 (fun a b => a + b) [6, 6, 6, 11] (CMS.fresh 2 2))
      (by norm_num) (by norm_num)).2⟩

/-- C10: a default-constructed sketch and a moved-from sketch have
`width() == 0` and `depth() == 0`; on any such `0 × 0` sketch every
operation is safe and a storage no-op (`increment` and `resetCount` are the
identity, `reset` and `decayCountsBy` touch no cell, and the table is never
read), and `getCount` returns `0` for every key — so the `depth == 0` guard
in `getCount` is reachable through the public interface. -/
theorem C10_degenerate_safe (M : Nat) (h : Nat → Nat → Nat) (k : Nat) (d : ℚ) :
    CMS.mkDefault.width = 0 ∧ CMS.mkDefault.depth = 0 ∧
    (∀ s : CMS, (CMS.moveFrom s).width = 0 ∧ (CMS.moveFrom s).depth = 0) ∧
    (∀ s : CMS, s.width = 0 → s.depth = 0 →
      CMS.getCount M h k s = 0 ∧
      CMS.increment M h k s = s ∧
      CMS.resetCount M h k s = s ∧
      ((CMS.reset s).width = s.width ∧ (CMS.reset s).depth = s.depth ∧
        (CMS.reset s).saturated = s.saturated ∧
        (∀ i, (CMS.reset s).table i = s.table i)) ∧
      ((CMS.decayCountsBy d s).width = s.width ∧
        (CMS.decayCountsBy d s).depth = s.depth ∧
        (CMS.decayCountsBy d s).saturated = s.saturated ∧
        (∀ i, (CMS.decayCountsBy d s).table i = s.table i))) := by
  refine ⟨rfl, rfl, fun s => ⟨rfl, rfl⟩, ?_⟩
  intro s hw0 hd0
  have hsz : s.width * s.depth = 0 := by rw [hw0, hd0]
  refine ⟨?_, ?_, ?_, ⟨rfl, rfl, rfl, ?_⟩, ⟨rfl, rfl, rfl, ?_⟩⟩
  · simp [CMS.getCount, hd0]
  · unfold CMS.increment
    rw [hd0, List.range_zero, List.foldl_nil]
  · unfold CMS.resetCount
    rw [hd0, List.range_zero, List.foldl_nil]
  · intro i
    unfold CMS.reset
    have : ¬i < s.width * s.depth := by omega
    exact if_neg this
  · intro i
    unfold CMS.decayCountsBy
    have : ¬i < s.width * s.depth := by omega
    exact if_neg this

/-- Witness for C10 at `M = 255`, key `42`, decay `1/2`, applied to the
default-constructed sketch. -/
theorem C10_degenerate_safe_witness :
    CMS.mkDefault.width = 0 ∧
      CMS.getCount 255 (fun a b => a + b) 42 CMS.mkDefault = 0 ∧
      CMS.increment 255 (fun a b => a + b) 42 CMS.mkDefault = CMS.mkDefault :=
  ⟨rfl,
    ((C10_degenerate_safe 255 (fun a b => a + b) 42 (1 / 2)).2.2.2
      CMS.mkDefault rfl rfl).1,
    ((C10_degenerate_safe 255 (fun a b => a + b) 42 (1 / 2)).2.2.2
      CMS.mkDefault rfl rfl).2.1⟩

end CountMinSketch

namespace CountMinSketch

namespace CMS

theorem countP_range_setTable (M : Nat) :
    ∀ (N : Nat) (t : Nat → Nat) (j v : Nat), j < N →
      (List.range N).countP (fun i => setTable t j v i == M) +
          (if t j = M then 1 else 0) =
        (List.range N).countP (fun i => t i == M) +
          (if v = M then 1 else 0) := by
  intro N
  induction N with
  | zero => intro t j v hj; omega
  | succ N ih =>
      intro t j v hj
      rw [List.range_succ, List.countP_append, List.countP_append]
      have hlast : ∀ (u : Nat → Nat),
          List.countP (fun i => u i == M) [N] = (if u N = M then 1 else 0) := by
        intro u
        simp [List.countP_cons, beq_iff_eq]
      rw [hlast (setTable t j v), hlast t]
      by_cases hjN : j = N
      · subst hjN
        have hcongr : (List.range j).countP (fun i => setTable t j v i == M) =
            (List.range j).countP (fun i => t i == M) := by
          apply List.countP_congr
          intro x hx
          have hxj : x ≠ j := by
            have := List.mem_range.mp hx
            omega
          rw [setTable_other t j v x hxj]
        rw [hcongr, setTable_same]
        omega
      · have hNj : (N : Nat) ≠ j := fun hcon => hjN hcon.symm
        rw [setTable_other t j v N hNj]
        have := ih t j v (by omega)
        omega

theorem incrementStep_satInv (M : Nat) (h : Nat → Nat → Nat) (k : Nat)
    (s : CMS) (r : Nat) (hw : 0 < s.width) (hr : r < s.depth)
    (hinv : s.saturated = satCells M s) :
    (incrementStep M h k s r).saturated = satCells M (incrementStep M h k s r) := by
  unfold incrementStep
  dsimp only
  split
  · next hc =>
      have hjN : s.getIndex h r k < s.width * s.depth :=
        getIndex_lt_size s h r k hw hr
      have hch := countP_range_setTable M (s.width * s.depth) s.table
        (s.getIndex h r k) (s.table (s.getIndex h r k) + 1) hjN
      have hfj : ¬(s.table (s.getIndex h r k) = M) := by omega
      rw [if_neg hfj, Nat.add_zero] at hch
      unfold satCells at hinv ⊢
      dsimp only
      by_cases hv : s.table (s.getIndex h r k) + 1 = M
      · rw [if_pos hv] at hch ⊢
        omega
      · rw [if_neg hv] at hch ⊢
        omega
  · exact hinv

theorem foldl_incrementStep_satInv (M : Nat) (h : Nat → Nat → Nat) (k : Nat) :
    ∀ (L : List Nat) (s : CMS), 0 < s.width → (∀ r ∈ L, r < s.depth) →
      s.saturated = satCells M s →
      (L.foldl (incrementStep M h k) s).saturated =
        satCells M (L.foldl (incrementStep M h k) s) := by
  intro L
  induction L with
  | nil => intro s _ _ hinv; exact hinv
  | cons a L ih =>
      intro s hw hL hinv
      rw [List.foldl_cons]
      apply ih
      · rw [incrementStep_width]; exact hw
      · intro r hrL
        rw [incrementStep_depth]
        exact hL r (List.mem_cons_of_mem _ hrL)
      · exact incrementStep_satInv M h k s a hw (hL a (List.mem_cons_self _ _))
          hinv

theorem increment_satInv (M : Nat) (h : Nat → Nat → Nat) (k : Nat) (s : CMS)
    (hw : 0 < s.width) (hinv : s.saturated = satCells M s) :
    (increment M h k s).saturated = satCells M (increment M h k s) :=
  foldl_incrementStep_satInv M h k (List.range s.depth) s hw
    (fun _ hr => List.mem_range.mp hr) hinv

theorem applyIncs_satInv (M : Nat) (h : Nat → Nat → Nat) :
    ∀ (ops : List Nat) (s : CMS), 0 < s.width →
      s.saturated = satCells M s →
      (applyIncs M h ops s).saturated = satCells M (applyIncs M h ops s) := by
  intro ops
  induction ops with
  | nil => intro s _ hinv; exact hinv
  | cons a ops ih =>
      intro s hw hinv
      show (applyIncs M h ops (increment M h a s)).saturated =
        satCells M (applyIncs M h ops (increment M h a s))
      apply ih
      · rw [increment_width]; exact hw
      · exact increment_satInv M h a s hw hinv

theorem satCells_fresh (M : Nat) (w d : Nat) (hM : 0 < M) :
    satCells M (fresh w d) = 0 := by
  unfold satCells
  apply List.countP_eq_zero.mpr
  intro a _
  simp [fresh, beq_iff_eq]
  omega

end CMS

set_option maxRecDepth 10000 in
/-- C2 as stated is false: `reset()` zeroes every cell but leaves
`saturated` untouched.  Concretely (counter type `uint8_t`, `M = 255`,
a `1 × 1` sketch): after 255 increments of key `7` the single cell is
saturated and `saturated = 1`; after `reset()` no cell equals 255 but
`getSaturatedCounts` still returns 1. -/
theorem C2_counterexample :
    CMS.getSaturatedCounts
        (CMS.reset (CMS.applyIncs 255 (fun a b => a + b) (List.replicate 255 7)
          (CMS.fresh 1 1))) ≠
      CMS.satCells 255
        (CMS.reset (CMS.applyIncs 255 (fun a b => a + b) (List.replicate 255 7)
          (CMS.fresh 1 1))) := by
  decide

/-- C2 amended: the invariant `getSaturatedCounts = number of cells equal to
the counter maximum` holds in every state reached from a freshly constructed
sketch by `increment` (and `getCount`, which does not mutate) alone; it is
not maintained across `resetCount`, `decayCountsBy` or `reset`. -/
theorem C2_saturated_eq_satCells_of_increments (M : Nat)
    (h : Nat → Nat → Nat) (w d : Nat) (ops : List Nat)
    (hM : 0 < M) (hw : 0 < w) :
    CMS.getSaturatedCounts (CMS.applyIncs M h ops (CMS.fresh w d)) =
      CMS.satCells M (CMS.applyIncs M h ops (CMS.fresh w d)) :=
  CMS.applyIncs_satInv M h ops (CMS.fresh w d) hw
    ((CMS.satCells_fresh M w d hM).symm)

/-- Witness for the amended C2 at `M = 255`, a `2 × 2` sketch, increments
`[3, 5, 3]`. -/
theorem C2_saturated_eq_satCells_of_increments_witness :
    CMS.getSaturatedCounts
        (CMS.applyIncs 255 (fun a b => 2 * a + b) [3, 5, 3] (CMS.fresh 2 2)) =
      CMS.satCells 255
        (CMS.applyIncs 255 (fun a b => 2 * a + b) [3, 5, 3] (CMS.fresh 2 2)) :=
  C2_saturated_eq_satCells_of_increments 255 (fun a b => 2 * a + b) 2 2
    [3, 5, 3] (by decide) (by decide)

end CountMinSketch

namespace CountMinSketch

theorem calculateWidth_error_eq (e : ℝ) (mw : Nat) (he : e ≤ 0 ∨ 1 ≤ e) :
    calculateWidth e mw = .error (.invalidError e) := by
  unfold calculateWidth
  rw [if_pos he]

theorem calculateWidth_ok_eq (e : ℝ) (mw : Nat) (he : ¬(e ≤ 0 ∨ 1 ≤ e)) :
    calculateWidth e mw =
      .ok (if 0 < mw then min mw (⌈2 / e⌉).toNat else (⌈2 / e⌉).toNat) := by
  unfold calculateWidth
  rw [if_neg he]

theorem calculateDepth_error_eq (p : ℝ) (md : Nat) (hp : p ≤ 0 ∨ 1 ≤ p) :
    calculateDepth p md = .error (.invalidProbability p) := by
  unfold calculateDepth
  rw [if_pos hp]

theorem calculateDepth_ok_eq (p : ℝ) (md : Nat) (hp : ¬(p ≤ 0 ∨ 1 ≤ p)) :
    calculateDepth p md =
      .ok (if 0 < md then
          min md (max 1 (⌈|Real.log (1 - p) / Real.log 2|⌉).toNat)
        else max 1 (⌈|Real.log (1 - p) / Real.log 2|⌉).toNat) := by
  unfold calculateDepth
  rw [if_neg hp]

theorem not_range_cond (x : ℝ) (h0 : 0 < x) (h1 : x < 1) : ¬(x ≤ 0 ∨ 1 ≤ x) := by
  rintro (hc | hc) <;> linarith

theorem calculateWidth_ok_pos (e : ℝ) (mw : Nat) (he0 : 0 < e) (he1 : e < 1) :
    ∃ W, calculateWidth e mw = .ok W ∧ 0 < W := by
  have hcond := not_range_cond e he0 he1
  have h2e : (2 : ℝ) ≤ 2 / e := by
    rw [le_div_iff₀ he0]
    nlinarith
  have hceil2 : (2 : ℤ) ≤ ⌈(2 : ℝ) / e⌉ := by
    have hc2 : (⌈(2 : ℝ)⌉ : ℤ) = 2 := by norm_num
    have := Int.ceil_le_ceil h2e
    omega
  have htn : 0 < (⌈(2 : ℝ) / e⌉).toNat := by omega
  refine ⟨_, calculateWidth_ok_eq e mw hcond, ?_⟩
  by_cases hmw : 0 < mw
  · rw [if_pos hmw]
    omega
  · rw [if_neg hmw]
    exact htn

theorem calculateDepth_ok_pos (p : ℝ) (md : Nat) (hp0 : 0 < p) (hp1 : p < 1) :
    ∃ D, calculateDepth p md = .ok D ∧ 0 < D := by
  have hcond := not_range_cond p hp0 hp1
  refine ⟨_, calculateDepth_ok_eq p md hcond, ?_⟩
  by_cases hmd : 0 < md
  · rw [if_pos hmd]
    have : 1 ≤ max 1 (⌈|Real.log (1 - p) / Real.log 2|⌉).toNat :=
      le_max_left _ _
    omega
  · rw [if_neg hmd]
    have : 1 ≤ max 1 (⌈|Real.log (1 - p) / Real.log 2|⌉).toNat :=
      le_max_left _ _
    omega

theorem fromAccuracy_eq_of_ok (e p : ℝ) (mw md W D : Nat)
    (hcw : calculateWidth e mw = .ok W) (hcd : calculateDepth p md = .ok D) :
    fromAccuracy e p mw md = withDimensions W D := by
  unfold fromAccuracy
  rw [hcw, hcd]
  rfl

theorem fromAccuracy_eq_of_werr (e p : ℝ) (mw md : Nat) (er : CMSError)
    (hcw : calculateWidth e mw = .error er) :
    fromAccuracy e p mw md = .error er := by
  unfold fromAccuracy
  rw [hcw]
  rfl

theorem fromAccuracy_eq_of_derr (e p : ℝ) (mw md W : Nat) (er : CMSError)
    (hcw : calculateWidth e mw = .ok W)
    (hcd : calculateDepth p md = .error er) :
    fromAccuracy e p mw md = .error er := by
  unfold fromAccuracy
  rw [hcw, hcd]
  rfl

theorem withDimensions_ok (w d : Nat) (hw : w ≠ 0) (hd : d ≠ 0) :
    withDimensions w d = .ok (CMS.fresh w d) := by
  unfold withDimensions
  rw [if_neg hw, if_neg hd]

/-- C6: construction raises `InvalidArgument` (naming the offending
parameter and its value) if and only if the accuracy parameters are outside
`(0,1)` or a dimension is zero; with parameters in range the constructors
succeed.  Post-construction operations never raise: in the embedding
`increment`, `getCount`, `resetCount`, `decayCountsBy` and `reset` are total
functions (the source functions contain no `throw`). -/
theorem C6_construction_errors (w d : Nat) (e p : ℝ) (mw md : Nat) :
    (w = 0 → withDimensions w d = .error (.invalidWidth w)) ∧
    (w ≠ 0 → d = 0 → withDimensions w d = .error (.invalidDepth d)) ∧
    ((∃ s, withDimensions w d = .ok s) ↔ (w ≠ 0 ∧ d ≠ 0)) ∧
    (e ≤ 0 ∨ 1 ≤ e → fromAccuracy e p mw md = .error (.invalidError e)) ∧
    (0 < e → e < 1 → p ≤ 0 ∨ 1 ≤ p →
      fromAccuracy e p mw md = .error (.invalidProbability p)) ∧
    ((∃ s, fromAccuracy e p mw md = .ok s) ↔
      (0 < e ∧ e < 1 ∧ 0 < p ∧ p < 1)) := by
  refine ⟨?_, ?_, ?_, ?_, ?_, ?_⟩
  · intro hw0
    unfold withDimensions
    rw [if_pos hw0]
  · intro hw0 hd0
    unfold withDimensions
    rw [if_neg hw0, if_pos hd0]
  · constructor
    · rintro ⟨s, hs⟩
      by_cases hw0 : w = 0
      · rw [withDimensions, if_pos hw0] at hs
        cases hs
      · by_cases hd0 : d = 0
        · rw [withDimensions, if_neg hw0, if_pos hd0] at hs
          cases hs
        · exact ⟨hw0, hd0⟩
    · rintro ⟨hw0, hd0⟩
      exact ⟨_, withDimensions_ok w d hw0 hd0⟩
  · intro he
    exact fromAccuracy_eq_of_werr e p mw md _ (calculateWidth_error_eq e mw he)
  · intro he0 he1 hp
    rcases calculateWidth_ok_pos e mw he0 he1 with ⟨W, hcw, _⟩
    exact fromAccuracy_eq_of_derr e p mw md W _ hcw
      (calculateDepth_error_eq p md hp)
  · constructor
    · rintro ⟨s, hs⟩
      by_cases he0 : 0 < e
      · by_cases he1 : e < 1
        · by_cases hp0 : 0 < p
          · by_cases hp1 : p < 1
            · exact ⟨he0, he1, hp0, hp1⟩
            · rcases calculateWidth_ok_pos e mw he0 he1 with ⟨W, hcw, _⟩
              rw [fromAccuracy_eq_of_derr e p mw md W _ hcw
                (calculateDepth_error_eq p md (Or.inr (by linarith)))] at hs
              cases hs
          · rcases calculateWidth_ok_pos e mw he0 he1 with ⟨W, hcw, _⟩
            rw [fromAccuracy_eq_of_derr e p mw md W _ hcw
              (calculateDepth_error_eq p md (Or.inl (by linarith)))] at hs
            cases hs
        · rw [fromAccuracy_eq_of_werr e p mw md _
            (calculateWidth_error_eq e mw (Or.inr (by linarith)))] at hs
          cases hs
      · rw [fromAccuracy_eq_of_werr e p mw md _
          (calculateWidth_error_eq e mw (Or.inl (by linarith)))] at hs
        cases hs
    · rintro ⟨he0, he1, hp0, hp1⟩
      rcases calculateWidth_ok_pos e mw he0 he1 with ⟨W, hcw, hWpos⟩
      rcases calculateDepth_ok_pos p md hp0 hp1 with ⟨D, hcd, hDpos⟩
      rw [fromAccuracy_eq_of_ok e p mw md W D hcw hcd,
        withDimensions_ok W D (by omega) (by omega)]
      exact ⟨_, rfl⟩

end CountMinSketch

namespace CountMinSketch

/-- Witness for C6: both zero dimensions are rejected with the matching
error, valid dimensions are accepted, an out-of-range error parameter is
rejected, and in-range accuracy parameters construct successfully. -/
theorem C6_construction_errors_witness :
    withDimensions 0 5 = .error (.invalidWidth 0) ∧
    withDimensions 5 0 = .error (.invalidDepth 0) ∧
    (∃ s, withDimensions 5 5 = .ok s) ∧
    fromAccuracy (3 / 2) (1 / 2) 0 0 = .error (.invalidError (3 / 2)) ∧
    (∃ s, fromAccuracy (1 / 100) (99 / 100) 0 0 = .ok s) :=
  ⟨(C6_construction_errors 0 5 (3 / 2) (1 / 2) 0 0).1 rfl,
   (C6_construction_errors 5 0 (3 / 2) (1 / 2) 0 0).2.1 (by decide) rfl,
   (C6_construction_errors 5 5 (3 / 2) (1 / 2) 0 0).2.2.1.mpr
     ⟨by decide, by decide⟩,
   (C6_construction_errors 0 5 (3 / 2) (1 / 2) 0 0).2.2.2.1
     (Or.inr (by norm_num)),
   (C6_construction_errors 0 5 (1 / 100) (99 / 100) 0 0).2.2.2.2.2.mpr
     ⟨by norm_num, by norm_num, by norm_num, by norm_num⟩⟩

/-- C7: for accuracy parameters in `(0,1)` the resolved dimensions are
`width = ⌈2 / error⌉` (clamped to `maxWidth` when positive) and
`depth = max 1 ⌈|ln(1 - probability) / ln 2|⌉` (clamped to `maxDepth` when
positive); in particular `fromAccuracy 0.01 0.99 0 0` resolves
`width = 200` and `depth = 7`. -/
theorem C7_accuracy_dimensions (e p : ℝ) (mw md : Nat)
    (he0 : 0 < e) (he1 : e < 1) (hp0 : 0 < p) (hp1 : p < 1) :
    calculateWidth e mw =
      .ok (if 0 < mw then min mw (⌈2 / e⌉).toNat else (⌈2 / e⌉).toNat) ∧
    calculateDepth p md =
      .ok (if 0 < md then
          min md (max 1 (⌈|Real.log (1 - p) / Real.log 2|⌉).toNat)
        else max 1 (⌈|Real.log (1 - p) / Real.log 2|⌉).toNat) ∧
    fromAccuracy (1 / 100) (99 / 100) 0 0 = .ok (CMS.fresh 200 7) := by
  refine ⟨calculateWidth_ok_eq e mw (not_range_cond e he0 he1),
    calculateDepth_ok_eq p md (not_range_cond p hp0 hp1), ?_⟩
  have hcw : calculateWidth (1 / 100 : ℝ) 0 = .ok 200 := by
    rw [calculateWidth_ok_eq (1 / 100 : ℝ) 0
      (not_range_cond _ (by norm_num) (by norm_num))]
    norm_num
    rfl
  have hlog : |Real.log (1 - (99 / 100 : ℝ)) / Real.log 2| =
      Real.logb 2 100 := by
    have h1 : (1 : ℝ) - 99 / 100 = 1 / 100 := by norm_num
    rw [h1, one_div, Real.log_inv, neg_div, abs_neg,
      abs_of_nonneg (div_nonneg (Real.log_nonneg (by norm_num))
        (Real.log_nonneg (by norm_num)))]
    rfl
  have hceil : ⌈Real.logb 2 100⌉ = 7 := by
    rw [Int.ceil_eq_iff]
    constructor
    · have h6lt : (6 : ℝ) < Real.logb 2 100 := by
        rw [Real.lt_logb_iff_rpow_lt (by norm_num) (by norm_num),
          show (6 : ℝ) = ((6 : Nat) : ℝ) by norm_num, Real.rpow_natCast]
        norm_num
      push_cast
      linarith
    · have h7le : Real.logb 2 100 ≤ (7 : ℝ) := by
        rw [Real.logb_le_iff_le_rpow (by norm_num) (by norm_num),
          show (7 : ℝ) = ((7 : Nat) : ℝ) by norm_num, Real.rpow_natCast]
        norm_num
      push_cast
      linarith
  have hcd : calculateDepth (99 / 100 : ℝ) 0 = .ok 7 := by
    rw [calculateDepth_ok_eq _ 0
      (not_range_cond _ (by norm_num) (by norm_num)), hlog, hceil]
    norm_num
    rfl
  rw [fromAccuracy_eq_of_ok _ _ _ _ 200 7 hcw hcd,
    withDimensions_ok 200 7 (by omega) (by omega)]

/-- Witness for C7: the theorem at `e = 1/2`, `p = 1/2`, `mw = 3`, `md = 4`
already yields the closed dimension-bound fact for
`fromAccuracy(0.01, 0.99, 0, 0)`. -/
theorem C7_accuracy_dimensions_witness :
    fromAccuracy (1 / 100) (99 / 100) 0 0 = .ok (CMS.fresh 200 7) :=
  (C7_accuracy_dimensions (1 / 2) (1 / 2) 3 4 (by norm_num) (by norm_num)
    (by norm_num) (by norm_num)).2.2

end CountMinSketch
